import Mathlib

/-!
Verification development for the CenProteo protein-essentiality ranking
library.  The numeric model is exact rational arithmetic (`ℚ`); Python
floating-point operations are mapped to the corresponding exact rational
operations, and a Python `ZeroDivisionError` is modelled by the checked
division `divQ?` returning `none` (an `Option`-valued computation that
yields `none` models a run that raises).  Dictionaries with a numeric
default (`d.get(k, 0.0)`, `if k not in d: 0`) are modelled by total
functions `ℕ → ℚ` whose value off the stored keys is `0`, which is
exactly how every read site of the source treats them.  Protein
identifiers are modelled as natural numbers.
-/

/-! ## Graph built from the PPI edge table

`networkx.Graph` with `add_edges_from` / `from_pandas_edgelist`
(`cenproteo/TGSO.py` `__init__`, `cenproteo/JDC.py` `__init__`,
`cenproteo/modern/base.py` `_load_graph`): an undirected graph whose node
set is exactly the set of endpoints of the listed edges, in first-seen
order.  `neighbors` lists nodes adjacent to `u`; its order is immaterial
to every value computed below (sums and maxima of exact rationals). -/

def insertNode (n : ℕ) (l : List ℕ) : List ℕ :=
  if n ∈ l then l else l ++ [n]

def nodesOf (es : List (ℕ × ℕ)) : List ℕ :=
  es.foldl (fun acc e => insertNode e.2 (insertNode e.1 acc)) []

def adjB (es : List (ℕ × ℕ)) (u v : ℕ) : Bool :=
  es.any (fun e => (e.1 = u && e.2 = v) || (e.1 = v && e.2 = u))

def neighbors (es : List (ℕ × ℕ)) (u : ℕ) : List ℕ :=
  (nodesOf es).filter (fun v => adjB es u v)

def degreeOf (es : List (ℕ × ℕ)) (u : ℕ) : ℕ :=
  (neighbors es u).length

def commonNbrs (es : List (ℕ × ℕ)) (u v : ℕ) : List ℕ :=
  (neighbors es u).filter (fun w => adjB es v w)

/-- `networkx.Graph.edges()`: yields each stored edge once, oriented as
`(n, nbr)` where `n` is the first endpoint reached in node order; a
neighbour already fully processed is skipped (the `seen` set of the
networkx generator). -/
def nxEdgesAux (adj : ℕ → List ℕ) : List ℕ → List ℕ → List (ℕ × ℕ)
  | [], _ => []
  | n :: ns, seen =>
      ((adj n).filter (fun v => !seen.contains v)).map (fun v => (n, v))
        ++ nxEdgesAux adj ns (n :: seen)

def nxEdges (es : List (ℕ × ℕ)) : List (ℕ × ℕ) :=
  nxEdgesAux (neighbors es) (nodesOf es) []

/-! ## Rational helpers -/

/-- Checked division: Python raises `ZeroDivisionError` when the divisor
is zero, modelled as `none`. -/
def divQ? (a b : ℚ) : Option ℚ :=
  if b = 0 then none else some (a / b)

def listSum (l : List ℚ) : ℚ :=
  l.foldl (fun a b => a + b) 0

def listMean (l : List ℚ) : ℚ :=
  listSum l / l.length

/-- Sum of squared deviations from the mean.  For a nonempty list this is
zero exactly when the (population or sample) standard deviation computed
by `np.std` / `pandas.Series.std` is zero, which is how the guard
`std == 0` of the source is modelled without leaving `ℚ`. -/
def sumSqDev (l : List ℚ) : ℚ :=
  listSum (l.map (fun x => (x - listMean l) ^ 2))

/-- Monadic left-to-right sum: the first summand whose computation raises
aborts the whole sum, as in the Python `for` loops. -/
def accumSum? (f : ℕ → Option ℚ) : List ℕ → Option ℚ
  | [] => some 0
  | j :: js => (f j).bind (fun x => (accumSum? f js).map (fun r => x + r))

/-- `max(abs(Pn[i] - P[i]) for i in nodes)`: Python `max` of an empty
generator raises, hence `none` on the empty list
(`cenproteo/TGSO.py` `calculate_P`). -/
def maxDiff? (Pn P : ℕ → ℚ) : List ℕ → Option ℚ
  | [] => none
  | i :: js =>
      some (match maxDiff? Pn P js with
            | none => |Pn i - P i|
            | some m => max |Pn i - P i| m)

/-- Modern convergence bookkeeping: `max_diff` starts at `0.0` and is
raised over the nodes (`cenproteo/modern/tgso.py` `calculate`). -/
def modernMaxDiff (nodes : List ℕ) (Pn P : ℕ → ℚ) : ℚ :=
  nodes.foldl (fun m i => max m |Pn i - P i|) 0

/-! ## Classic propagation engine (`cenproteo/TGSO.py`, `calculate_P`)

The engine is taken at the interface of spec §4.3: node list, LSG vector,
restart vector `P0`, damping `alpha`, iteration cap, tolerance, and the
edge count `E = len(self.G.edges)` used by the convergence test.  The
inner loop computes, for each ordered pair, `PCIN` by a division by
`LSG_total` and accumulates
`p_j = (1 - a) * PCIN * P[j] + a * P0[j]`; note that the restart term
uses `P0[protein_j]` and is accumulated for every `j`. -/

def classicPCIN? (LSG : ℕ → ℚ) (tot : ℚ) (i j : ℕ) : Option ℚ :=
  if i ≠ j then divQ? (min (LSG i) (LSG j)) tot else divQ? (LSG i) tot

def classicPnewAt? (nodes : List ℕ) (LSG P0 : ℕ → ℚ) (tot α : ℚ)
    (P : ℕ → ℚ) (i : ℕ) : Option ℚ :=
  accumSum? (fun j =>
    (classicPCIN? LSG tot i j).bind
      (fun pcin => some ((1 - α) * pcin * P j + α * P0 j))) nodes

def classicPnew? (nodes : List ℕ) (LSG P0 : ℕ → ℚ) (tot α : ℚ)
    (P : ℕ → ℚ) : List ℕ → Option (ℕ → ℚ)
  | [] => some (fun _ => 0)
  | i :: is =>
      match classicPnewAt? nodes LSG P0 tot α P i,
            classicPnew? nodes LSG P0 tot α P is with
      | some v, some f => some (fun j => if j = i then v else f j)
      | _, _ => none

/-- One `for _ in range(max_iter)` loop of the classic engine.  On
convergence the code `break`s **before** the assignment `P = P_new`, so
the pair returned is the previous vector `P` together with the iteration
count. -/
def classicIter? (nodes : List ℕ) (LSG P0 : ℕ → ℚ) (tot α tol E : ℚ) :
    ℕ → (ℕ → ℚ) → ℕ → Option ((ℕ → ℚ) × ℕ)
  | 0, P, t => some (P, t)
  | fuel + 1, P, t =>
      (classicPnew? nodes LSG P0 tot α P nodes).bind (fun Pn =>
        (maxDiff? Pn P nodes).bind (fun d =>
          (divQ? d E).bind (fun r =>
            if r < tol then some (P, t + 1)
            else classicIter? nodes LSG P0 tot α tol E fuel Pn (t + 1))))

/-- `TGSO.calculate_P` (classic): `LSG_total = sum(LSG.values())`,
`P := P0`, then the loop above.  `E` is `len(self.G.edges)`. -/
def classic_calculate_P (nodes : List ℕ) (LSG P0 : ℕ → ℚ) (α tol : ℚ)
    (maxIter : ℕ) (E : ℚ) : Option ((ℕ → ℚ) × ℕ) :=
  classicIter? nodes LSG P0 (listSum (nodes.map LSG)) α tol E maxIter P0 0

/-! ## Modern propagation engine (`cenproteo/modern/tgso.py`, `calculate`)

All divisions of the iteration have the guarded denominator
`total_lsg_norm`, modelled by `modernNorm`; the engine therefore needs no
checked division.  The boolean paired with the result records whether the
`total_lsg == 0` warning was printed. -/

def modernNorm (tot : ℚ) : ℚ :=
  if tot = 0 then 1 else tot

def modernPCIN (LSG : ℕ → ℚ) (norm : ℚ) (i j : ℕ) : ℚ :=
  if i = j then LSG i / norm else min (LSG i) (LSG j) / norm

def modernSumPcinP (nodes : List ℕ) (LSG : ℕ → ℚ) (norm : ℚ)
    (P : ℕ → ℚ) (i : ℕ) : ℚ :=
  nodes.foldl (fun acc j => acc + modernPCIN LSG norm i j * P j) 0

def modernPnewAt (nodes : List ℕ) (LSG P0 : ℕ → ℚ) (norm α : ℚ)
    (P : ℕ → ℚ) (i : ℕ) : ℚ :=
  (1 - α) * modernSumPcinP nodes LSG norm P i + α * P0 i

def modernPnew (nodes : List ℕ) (LSG P0 : ℕ → ℚ) (norm α : ℚ)
    (P : ℕ → ℚ) : ℕ → ℚ :=
  fun i => if i ∈ nodes then modernPnewAt nodes LSG P0 norm α P i else 0

structure ModernOut where
  P : ℕ → ℚ
  iters : ℕ
  converged : Bool

/-- Modern iteration: on `max_diff < tol` the code sets `P = P_new` and
breaks, so the converged result is the freshly computed vector. -/
def modernLoop (nodes : List ℕ) (LSG P0 : ℕ → ℚ) (norm α tol : ℚ) :
    ℕ → (ℕ → ℚ) → ℕ → ModernOut
  | 0, P, t => ⟨P, t, false⟩
  | fuel + 1, P, t =>
      let Pn := modernPnew nodes LSG P0 norm α P
      let d := modernMaxDiff nodes Pn P
      if d < tol then ⟨Pn, t + 1, true⟩
      else modernLoop nodes LSG P0 norm α tol fuel Pn (t + 1)

/-- `TGSO.calculate` (modern), propagation part: total LSG, the zero-guard
with its warning, `P` initialised from `P0` over the graph nodes, then
the iteration.  The second component is `true` exactly when the
degenerate-normalizer warning was emitted. -/
def modern_calculate (nodes : List ℕ) (LSG P0 : ℕ → ℚ) (α tol : ℚ)
    (maxIter : ℕ) : ModernOut × Bool :=
  let tot := listSum (nodes.map LSG)
  (modernLoop nodes LSG P0 (modernNorm tot) α tol maxIter
      (fun i => if i ∈ nodes then P0 i else 0) 0,
   decide (tot = 0))

/-! ## Spec model of one propagation update

Modelled from the spec: §4.3 steps 2 and 4, for comparison with the two
engines above.  `PCIN(i,j) = LSG(i)/totalLSG` if `i = j`, else
`min(LSG(i), LSG(j))/totalLSG`, and
`P_new(i) = (1 - alpha) * Σ_j PCIN(i,j) * P(j) + alpha * P0(i)` with the
restart term added once per node `i`. -/

def spec_PCIN (LSG : ℕ → ℚ) (tot : ℚ) (i j : ℕ) : ℚ :=
  if i = j then LSG i / tot else min (LSG i) (LSG j) / tot

def spec_Pnew (nodes : List ℕ) (LSG P0 : ℕ → ℚ) (tot α : ℚ)
    (P : ℕ → ℚ) (i : ℕ) : ℚ :=
  (1 - α) * listSum (nodes.map (fun j => spec_PCIN LSG tot i j * P j)) + α * P0 i

/-! ## Pearson correlation (`TGSO.pearson_correlation_coefficient`, classic)

The classic variant reads the per-protein record `{data, mean, std}`
(mean and std are the trailing columns of the expression table) and
computes `Σ_i ((x_i - mean_u)/std_u) * ((y_i - mean_v)/std_v) / (n - 1)`
over `i < n` with `n = len(data_u)`, finally taking `abs`.  Every
division and list index is checked: a zero stored `std`, a too-short
partner row, or `n = 1` raises in Python. -/

structure ExprRow where
  data : List ℚ
  mean : ℚ
  std : ℚ

def pccSum? (du dv : List ℚ) (mu su mv sv : ℚ) : List ℕ → Option ℚ
  | [] => some 0
  | i :: is =>
      (du[i]?).bind (fun x =>
        (dv[i]?).bind (fun y =>
          (divQ? (x - mu) su).bind (fun a =>
            (divQ? (y - mv) sv).bind (fun b =>
              (pccSum? du dv mu su mv sv is).map (fun r => a * b + r)))))

def classic_pearson_correlation_coefficient? (store : ℕ → Option ExprRow)
    (u v : ℕ) : Option ℚ :=
  match store u, store v with
  | some ru, some rv =>
      (pccSum? ru.data rv.data ru.mean ru.std rv.mean rv.std
          (List.range ru.data.length)).bind
        (fun s => (divQ? s ((ru.data.length : ℚ) - 1)).map (fun p => |p|))
  | _, _ => some 0

/-! ## Pearson correlation, modern variants

`modern/tgso.py` `_calculate_pcc` and `modern/teo.py` `_calculate_pcc`
pair the two rows, drop pairs where either value is NaN (a NaN cell is
modelled as `none`), return `0.0` for fewer than two valid pairs or zero
standard deviation, and otherwise call the library correlation
(`np.corrcoef` / `Series.corr`).  The library kernel is an external
collaborator and is abstracted as the parameter `corr`; the guard
`std == 0` is modelled by `sumSqDev = 0`, which is equivalent for exact
reals.  The tgso variant returns the absolute value, the teo variant the
signed value. -/

def validPairs (ru rv : List (Option ℚ)) : List (ℚ × ℚ) :=
  (ru.zip rv).filterMap (fun p =>
    match p.1, p.2 with
    | some a, some b => some (a, b)
    | _, _ => none)

def modernTgsoPCC (corr : List (ℚ × ℚ) → ℚ)
    (store : ℕ → Option (List (Option ℚ))) (u v : ℕ) : ℚ :=
  match store u, store v with
  | some ru, some rv =>
      let pairs := validPairs ru rv
      if pairs.length ≤ 1 then 0
      else if sumSqDev (pairs.map Prod.fst) = 0 ∨
              sumSqDev (pairs.map Prod.snd) = 0 then 0
      else |corr pairs|
  | _, _ => 0

def modernTeoPCC (corr : List (ℚ × ℚ) → ℚ)
    (store : ℕ → Option (List (Option ℚ))) (u v : ℕ) : ℚ :=
  match store u, store v with
  | some ru, some rv =>
      let pairs := validPairs ru rv
      if pairs.length < 2 then 0
      else if sumSqDev (pairs.map Prod.fst) = 0 ∨
              sumSqDev (pairs.map Prod.snd) = 0 then 0
      else corr pairs
  | _, _ => 0

/-- `modern/tgso.py` `_calculate_cen`: `PCC(u,v)` plus the
triangle-mediated reinforcement over common neighbours (the per-pair
cache only avoids recomputation and does not change values). -/
def modernCEN (corr : List (ℚ × ℚ) → ℚ)
    (store : ℕ → Option (List (Option ℚ))) (es : List (ℕ × ℕ))
    (u v : ℕ) : ℚ :=
  modernTgsoPCC corr store u v +
    listSum ((commonNbrs es u v).map (fun w =>
      modernTgsoPCC corr store u w * modernTgsoPCC corr store v w))

/-! ## Classic JDC (`cenproteo/JDC.py`)

`binariztion_gene_expression` (source spelling) thresholds at
`mean + 2*std + volatility` with `volatility = 1/(1 + std)`;
`Jaccard_similarity_index` then takes the Jaccard index of the **sets of
binary values** `set(binary_data) ⊆ {0, 1}` of the two proteins, and
`calculate_jdc` sums `jaccard * ecc` over a node's neighbours, looking
the two dictionaries up by the ordered key `(node, neighbor)` and
silently skipping the edge (`except KeyError: continue`) when only the
opposite orientation was stored by the `G.edges()` loops.  (The divisor
`1 + std` is nonzero for every standard deviation, so plain division is
faithful here.) -/

def classic_binariztion (data : List ℚ) (mean std : ℚ) : List ℕ :=
  data.map (fun value =>
    if value > mean + 2 * std + 1 / (1 + std) then 1 else 0)

def classic_Jaccard_value (bu bv : List ℕ) : ℚ :=
  let iu := bu.toFinset
  let iv := bv.toFinset
  if (iu ∪ iv).card ≠ 0 then ((iu ∩ iv).card : ℚ) / ((iu ∪ iv).card : ℚ)
  else 0

def classic_ecc_value (es : List (ℕ × ℕ)) (u v : ℕ) : ℚ :=
  let actual := (commonNbrs es u v).length
  let possible := (min (degreeOf es u) (degreeOf es v) : ℤ) - 1
  if possible > 0 then (actual : ℚ) / (possible : ℚ) else 0

/-- The jaccard dictionary entry stored for an edge key: `0` when either
protein is missing from the expression store (the inner
`except KeyError`). -/
def classic_jaccard_entry (store : ℕ → Option ExprRow) (u v : ℕ) : ℚ :=
  match store u, store v with
  | some ru, some rv =>
      classic_Jaccard_value (classic_binariztion ru.data ru.mean ru.std)
        (classic_binariztion rv.data rv.mean rv.std)
  | _, _ => 0

/-- `JDC.calculate_jdc` score of one node: contributions only for
neighbours whose edge key was stored in the `(node, neighbor)`
orientation by `G.edges()`. -/
def classic_calculate_jdc_score (es : List (ℕ × ℕ))
    (store : ℕ → Option ExprRow) (node : ℕ) : ℚ :=
  listSum ((neighbors es node).map (fun v =>
    if (node, v) ∈ nxEdges es then
      classic_jaccard_entry store node v * classic_ecc_value es node v
    else 0))

/-! ## Modern JDC activity profile (`cenproteo/modern/jdc.py`, `calculate`)

The mean over the measurement columns is exact rational arithmetic and is
computed here; the library standard deviation (`pandas.std`, a square
root) is abstracted as the parameter `s`.  The active time-point set is
the set of measurement indices whose value exceeds
`mean + 2*std*volatility`, `volatility = 1/(1 + std^2)`; the edge weight
is the Jaccard index of the two index sets, `0` on an empty union. -/

def modern_activeSet (data : List ℚ) (s : ℚ) : Finset ℕ :=
  let volatility := 1 / (1 + s ^ 2)
  let threshold := listMean data + 2 * s * volatility
  ((List.range data.length).filter
      (fun t => decide (data.getD t 0 > threshold))).toFinset

def jaccardIndexQ (A B : Finset ℕ) : ℚ :=
  if (A ∪ B).card = 0 then 0 else ((A ∩ B).card : ℚ) / ((A ∪ B).card : ℚ)

/-! ## Spec model of the binary-activity Jaccard weight

Modelled from the spec: §4.1, "each protein has a derived active
time-point set obtained by thresholding its expression vector against
`mean + 2*std*volatility` where `volatility = 1/(1+std^2)`; the weight is
the Jaccard index of the two proteins' active-point sets, 0 if the union
is empty".  Mean and std are the profile's derived statistics, taken here
as given inputs. -/

def spec_activeSet (data : List ℚ) (mean s : ℚ) : Finset ℕ :=
  ((List.range data.length).filter
      (fun t => decide (data.getD t 0 > mean + 2 * s * (1 / (1 + s ^ 2))))).toFinset

def spec_jaccardWeight (A B : Finset ℕ) : ℚ :=
  if (A ∪ B).card = 0 then 0 else ((A ∩ B).card : ℚ) / ((A ∪ B).card : ℚ)

/-! ## Classic symmetric edge weights (`TGSO.ADN`, `TGSO.CLN`,
`TEO._create_GO_dict`)

`ADN(a,b) = (1 + |common neighbours|) / min(|NG(a)|, |NG(b)|)` — the
numerator of the source starts at `1` and is incremented once per common
neighbour.  `CLN(a,b)` combines the label-overlap fraction with the mean
of the two S-scores, `0` on an empty label union.  The GO-similarity
table stores, for every loaded row, the record under both orientations of
the protein pair. -/

def classic_ADN_value (es : List (ℕ × ℕ)) (a b : ℕ) : ℚ :=
  ((1 + (commonNbrs es a b).length : ℚ)) /
    ((min (degreeOf es a) (degreeOf es b) : ℚ))

def classic_CLN_value (loc : ℕ → Finset ℕ) (S : ℕ → ℚ) (a b : ℕ) : ℚ :=
  let inter := (loc a ∩ loc b).card
  let union := (loc a ∪ loc b).card
  if union = 0 then 0 else ((inter : ℚ) / (union : ℚ)) * (S a + S b) / 2

structure GoRec where
  bp : ℚ
  mf : ℚ
  cc : ℚ

def goBuild (rows : List ((ℕ × ℕ) × GoRec)) : (ℕ × ℕ) → Option GoRec :=
  rows.foldl
    (fun d row => fun q =>
      if q = row.1 ∨ q = (row.1.2, row.1.1) then some row.2 else d q)
    (fun _ => none)

/-! ## Score sanitization before ranking (`modern/tgso.py` vs `modern/jdc.py`)

Final scores may be NaN or infinite; the float classification (not the
arithmetic that produced it) is what the two sanitizers inspect, so a
score is modelled as a tagged value. -/

inductive FVal where
  | num (q : ℚ)
  | nan
  | inf
  | neginf
deriving DecidableEq

def isFiniteF : FVal → Bool
  | .num _ => true
  | _ => false

/-- `modern/tgso.py` `calculate`: `v if pd.notna(v) and np.isfinite(v)
else 0.0`, applied to every entry of the final score dict. -/
def tgso_sanitize (v : FVal) : FVal :=
  if isFiniteF v then v else .num 0

def tgso_sanitizeList (l : List (ℕ × FVal)) : List (ℕ × FVal) :=
  l.map (fun p => (p.1, tgso_sanitize p.2))

/-- `modern/jdc.py` `calculate`: `replace([inf, -inf], nan)` followed by
`dropna(subset=[Score])`. -/
def jdc_replaceInf (v : FVal) : FVal :=
  match v with
  | .inf => .nan
  | .neginf => .nan
  | x => x

def jdc_sanitizeList (l : List (ℕ × FVal)) : List (ℕ × FVal) :=
  (l.map (fun p => (p.1, jdc_replaceInf p.2))).filter
    (fun p => p.2 ≠ FVal.nan)

/-! ## Shared concrete test vectors -/

def lsgOne : ℕ → ℚ := fun _ => 1

def lsgZero : ℕ → ℚ := fun _ => 0

def p0Ind : ℕ → ℚ := fun n => if n = 0 then 1 else 0

/-! ## Helper lemmas -/

theorem foldl_add_shift (l : List ℚ) :
    ∀ a : ℚ, l.foldl (fun u v => u + v) a = a + l.foldl (fun u v => u + v) 0 := by
  induction l with
  | nil => intro a; simp
  | cons x xs ih =>
      intro a
      simp only [List.foldl_cons]
      rw [ih (a + x), ih (0 + x)]
      ring

theorem listSum_cons (x : ℚ) (xs : List ℚ) :
    listSum (x :: xs) = x + listSum xs := by
  simp only [listSum, List.foldl_cons]
  rw [foldl_add_shift]
  ring

theorem foldl_add_map (l : List ℕ) (g : ℕ → ℚ) :
    ∀ a : ℚ, l.foldl (fun acc j => acc + g j) a = a + listSum (l.map g) := by
  induction l with
  | nil => intro a; simp [listSum]
  | cons x xs ih =>
      intro a
      simp only [List.foldl_cons, List.map_cons]
      rw [ih (a + g x), listSum_cons]
      ring

theorem listSum_map_zero (l : List ℕ) (f : ℕ → ℚ)
    (h : ∀ w ∈ l, f w = 0) : listSum (l.map f) = 0 := by
  induction l with
  | nil => simp [listSum]
  | cons x xs ih =>
      simp only [List.map_cons]
      rw [listSum_cons, h x (by simp), ih (fun w hw => h w (by simp [hw]))]
      ring

theorem mem_insertNode (u n : ℕ) (l : List ℕ) :
    u ∈ insertNode n l ↔ u = n ∨ u ∈ l := by
  simp only [insertNode]
  split
  · rename_i hmem
    constructor
    · intro h; exact Or.inr h
    · rintro (rfl | h)
      · exact hmem
      · exact h
  · simp [List.mem_append, or_comm]

theorem mem_nodesOf_aux (es : List (ℕ × ℕ)) :
    ∀ (acc : List ℕ) (u : ℕ),
      u ∈ es.foldl (fun a e => insertNode e.2 (insertNode e.1 a)) acc ↔
        u ∈ acc ∨ ∃ e ∈ es, u = e.1 ∨ u = e.2 := by
  induction es with
  | nil => intro acc u; simp
  | cons e es ih =>
      intro acc u
      simp only [List.foldl_cons]
      rw [ih]
      simp only [mem_insertNode, List.mem_cons]
      constructor
      · rintro (h | h)
        · rcases h with h | h
          · exact Or.inr ⟨e, Or.inl rfl, Or.inr h⟩
          · rcases h with h | h
            · exact Or.inr ⟨e, Or.inl rfl, Or.inl h⟩
            · exact Or.inl h
        · rcases h with ⟨f, hf, hu⟩
          exact Or.inr ⟨f, Or.inr hf, hu⟩
      · rintro (h | ⟨f, hf, hu⟩)
        · exact Or.inl (Or.inr (Or.inr h))
        · rcases hf with rfl | hf
          · rcases hu with h | h
            · exact Or.inl (Or.inr (Or.inl h))
            · exact Or.inl (Or.inl h)
          · exact Or.inr ⟨f, hf, hu⟩

theorem mem_nodesOf (es : List (ℕ × ℕ)) (u : ℕ) :
    u ∈ nodesOf es ↔ ∃ e ∈ es, u = e.1 ∨ u = e.2 := by
  rw [nodesOf, mem_nodesOf_aux]
  simp

/-- C10: every node of the working graph has at least one incident edge:
the node set is built exclusively from the rows of the PPI edge table, so
each node is an endpoint of some listed edge and its neighbour list is
nonempty (degree at least 1); no isolated proteins exist at this
interface. -/
theorem C10_no_isolated_nodes (es : List (ℕ × ℕ)) (u : ℕ)
    (hu : u ∈ nodesOf es) : 0 < degreeOf es u := by
  rcases (mem_nodesOf es u).mp hu with ⟨e, he, hend⟩
  have hadj : ∀ v w : ℕ, (v, w) = e → adjB es u v = true ∨ adjB es u w = true := by
    intro v w hvw
    rcases hend with h1 | h2
    · right
      simp only [adjB, List.any_eq_true]
      refine ⟨e, he, ?_⟩
      simp [← hvw] at h1 ⊢
      simp [h1]
    · left
      simp only [adjB, List.any_eq_true]
      refine ⟨e, he, ?_⟩
      simp [← hvw] at h2 ⊢
      simp [h2]
  have hmemnodes : e.1 ∈ nodesOf es ∧ e.2 ∈ nodesOf es := by
    constructor
    · exact (mem_nodesOf es e.1).mpr ⟨e, he, Or.inl rfl⟩
    · exact (mem_nodesOf es e.2).mpr ⟨e, he, Or.inr rfl⟩
  rcases hadj e.1 e.2 rfl with h | h
  · have : e.1 ∈ neighbors es u := by
      simp only [neighbors, List.mem_filter]
      exact ⟨hmemnodes.1, h⟩
    exact List.length_pos_of_mem this
  · have : e.2 ∈ neighbors es u := by
      simp only [neighbors, List.mem_filter]
      exact ⟨hmemnodes.2, h⟩
    exact List.length_pos_of_mem this

theorem C10_witness : (0 ∈ nodesOf [(0, 1)]) ∧ 0 < degreeOf [(0, 1)] 0 :=
  ⟨by decide, C10_no_isolated_nodes [(0, 1)] 0 (by decide)⟩

theorem modernSum_eq_listSum (nodes : List ℕ) (LSG : ℕ → ℚ) (norm : ℚ)
    (P : ℕ → ℚ) (i : ℕ) :
    modernSumPcinP nodes LSG norm P i =
      listSum (nodes.map (fun j => modernPCIN LSG norm i j * P j)) := by
  simp only [modernSumPcinP]
  rw [foldl_add_map nodes (fun j => modernPCIN LSG norm i j * P j) 0]
  ring

/-- C1: in every iteration and for every node `i`, the new score of the
TGSO propagation engine equals
`P_new(i) = (1-alpha) * Σ_j PCIN(i,j) * P(j) + alpha * P0(i)` with the
restart term added once per node `i`.  The modern engine
(`modern/tgso.py`) satisfies this for every input with a nonzero
normalizer; the classic engine (`TGSO.py`, `calculate_P`) instead adds
`alpha * P0(j)` once per summand `j`: on the two-node instance below it
produces `13/20` at node `1` where the claimed formula gives `7/20`. -/
theorem C1_restart_term_once_per_node :
    (∀ (nodes : List ℕ) (LSG P0 : ℕ → ℚ) (tot α : ℚ) (P : ℕ → ℚ) (i : ℕ),
        tot ≠ 0 → i ∈ nodes →
        modernPnew nodes LSG P0 (modernNorm tot) α P i =
          spec_Pnew nodes LSG P0 tot α P i) ∧
    (classicPnewAt? [0, 1] lsgOne p0Ind 2 (3/10) p0Ind 1 = some (13/20) ∧
     spec_Pnew [0, 1] lsgOne p0Ind 2 (3/10) p0Ind 1 = 7/20 ∧
     ((7 : ℚ)/20 < 13/20)) := by
  refine ⟨?_, ?_, ?_, by norm_num⟩
  · intro nodes LSG P0 tot α P i htot hi
    have hnorm : modernNorm tot = tot := by simp [modernNorm, htot]
    simp only [modernPnew, if_pos hi, modernPnewAt, spec_Pnew, hnorm,
      modernSum_eq_listSum]
    have hfun : (fun j => modernPCIN LSG tot i j * P j) =
        (fun j => spec_PCIN LSG tot i j * P j) := by
      funext j
      simp [modernPCIN, spec_PCIN]
    rw [hfun]
  · norm_num [classicPnewAt?, accumSum?, classicPCIN?, divQ?, lsgOne,
      p0Ind, Option.bind]
  · norm_num [spec_Pnew, spec_PCIN, listSum, lsgOne, p0Ind]

theorem C1_witness :
    (2 : ℚ) ≠ 0 ∧
      modernPnew [0, 1] lsgOne p0Ind (modernNorm 2) (3/10) p0Ind 1 =
        spec_Pnew [0, 1] lsgOne p0Ind 2 (3/10) p0Ind 1 :=
  ⟨by norm_num,
   C1_restart_term_once_per_node.1 [0, 1] lsgOne p0Ind 2 (3/10) p0Ind 1
     (by norm_num) (by decide)⟩

/-- C2: the spec's stopping rule compares `maxDiff = max_i |P_new(i) - P(i)|`
itself against `tol` and accepts `P_new` on an early stop.  On the
three-node instance below (two edges, `tol = 1/3`), the first iteration
of the classic engine (`TGSO.py`, `calculate_P`) has `maxDiff = 8/15`,
which is not below `tol`, yet the engine stops in iteration 1 because it
compares `maxDiff / E = 4/15` (scaled by the edge count `E = 2`) against
`tol`; and the vector it returns is the previous vector `P = P0`
(values `1, 0, 0`), not the accepted `P_new` (constant `8/15`). -/
theorem C2_convergence_test :
    (classic_calculate_P [0, 1, 2] lsgOne p0Ind (3/10) (1/3) 5 2).map
        (fun r => (r.2, r.1 0, r.1 1, r.1 2)) = some (1, 1, 0, 0) ∧
    (classicPnew? [0, 1, 2] lsgOne p0Ind 3 (3/10) p0Ind [0, 1, 2]).map
        (fun Pn => (Pn 0, Pn 1, Pn 2)) = some (8/15, 8/15, 8/15) ∧
    (classicPnew? [0, 1, 2] lsgOne p0Ind 3 (3/10) p0Ind [0, 1, 2]).bind
        (fun Pn => maxDiff? Pn p0Ind [0, 1, 2]) = some (8/15) ∧
    ((1 : ℚ)/3 ≤ 8/15) ∧ ((0 : ℚ) < 8/15) := by
  have habs1 : |(7 : ℚ)/15| = 7/15 := abs_of_nonneg (by norm_num)
  have habs2 : |(8 : ℚ)/15| = 8/15 := abs_of_nonneg (by norm_num)
  have hsup : ((7 : ℚ)/15) ⊔ ((8 : ℚ)/15) = 8/15 :=
    sup_eq_right.mpr (by norm_num)
  have hAt : ∀ i ∈ [0, 1, 2],
      classicPnewAt? [0, 1, 2] lsgOne p0Ind 3 (3/10) p0Ind i = some (8/15) := by
    intro i hi
    fin_cases hi <;>
      norm_num [classicPnewAt?, accumSum?, classicPCIN?, divQ?, lsgOne,
        p0Ind, Option.bind]
  have hPn : classicPnew? [0, 1, 2] lsgOne p0Ind 3 (3/10) p0Ind [0, 1, 2] =
      some (fun j => if j = 0 then 8/15 else if j = 1 then 8/15
            else if j = 2 then 8/15 else 0) := by
    simp only [classicPnew?, hAt 0 (by decide), hAt 1 (by decide),
      hAt 2 (by decide)]
  have hMd : maxDiff? (fun j => if j = 0 then 8/15 else if j = 1 then 8/15
        else if j = 2 then (8 : ℚ)/15 else 0) p0Ind [0, 1, 2] = some (8/15) := by
    norm_num [maxDiff?, p0Ind, habs1, habs2, hsup]
  refine ⟨?_, ?_, ?_, by norm_num, by norm_num⟩
  · rw [classic_calculate_P]
    have htot : listSum ([0, 1, 2].map lsgOne) = 3 := by
      norm_num [listSum, lsgOne]
    rw [htot]
    rw [classicIter?]
    rw [hPn]
    simp only [Option.some_bind]
    rw [hMd]
    simp only [Option.some_bind, divQ?]
    norm_num [p0Ind]
  · rw [hPn]
    norm_num
  · rw [hPn]
    simp only [Option.some_bind]
    exact hMd

/-- C3: when `totalLSG = 0` the propagation engine still runs to
completion with the normalizer treated as `1`, without division errors,
and surfaces a warning.  The modern engine (`modern/tgso.py`) satisfies
this: every division of its iteration has denominator
`total_lsg_norm = modernNorm totalLSG`, which is never zero and equals
`1` in the degenerate case, and its warning fires exactly when
`totalLSG = 0`.  The classic engine (`TGSO.py`, `calculate_P`) divides by
`LSG_total` unguarded and raises `ZeroDivisionError` (result `none`) on a
two-node graph whose LSG vector is identically zero. -/
theorem C3_zero_totalLSG :
    (∀ tot : ℚ, modernNorm tot ≠ 0) ∧
    modernNorm 0 = 1 ∧
    (∀ (nodes : List ℕ) (LSG P0 : ℕ → ℚ) (α tol : ℚ) (maxIter : ℕ),
        (modern_calculate nodes LSG P0 α tol maxIter).2 = true ↔
          listSum (nodes.map LSG) = 0) ∧
    classic_calculate_P [0, 1] lsgZero p0Ind (3/10) (1/100) 5 1 = none := by
  refine ⟨?_, by simp [modernNorm], ?_, ?_⟩
  · intro tot
    by_cases h : tot = 0 <;> simp [modernNorm, h]
  · intro nodes LSG P0 α tol maxIter
    simp [modern_calculate]
  · norm_num [classic_calculate_P, classicIter?, classicPnew?,
      classicPnewAt?, accumSum?, classicPCIN?, divQ?, listSum, lsgZero,
      Option.bind]

theorem C3_witness :
    modernNorm 0 ≠ 0 ∧
      ((modern_calculate [0, 1] lsgZero p0Ind (3/10) (1/100) 5).2 = true ↔
        listSum ([0, 1].map lsgZero) = 0) :=
  ⟨C3_zero_totalLSG.1 0,
   C3_zero_totalLSG.2.2.1 [0, 1] lsgZero p0Ind (3/10) (1/100) 5⟩

theorem modernMaxDiff_eq_zero (nodes : List ℕ) (Pn P : ℕ → ℚ)
    (h : ∀ i ∈ nodes, Pn i = P i) : modernMaxDiff nodes Pn P = 0 := by
  induction nodes with
  | nil => rfl
  | cons i is ih =>
      simp only [modernMaxDiff, List.foldl_cons]
      rw [h i (by simp), sub_self, abs_zero, max_self]
      simpa [modernMaxDiff] using ih (fun j hj => h j (by simp [hj]))

theorem modernPnew_alpha_one (nodes : List ℕ) (LSG P0 : ℕ → ℚ)
    (norm : ℚ) (P : ℕ → ℚ) :
    modernPnew nodes LSG P0 norm 1 P =
      fun i => if i ∈ nodes then P0 i else 0 := by
  funext i
  by_cases hi : i ∈ nodes <;> simp [modernPnew, hi, modernPnewAt]

def constOne2 : ℕ → ℚ := fun j => if j = 0 then 1 else if j = 1 then 1 else 0

/-- C6: with the restart weight `alpha = 1` the propagation result equals
`P0` and is reached within one iteration, for every LSG vector and every
graph.  The modern engine (`modern/tgso.py`) satisfies this for every
positive tolerance and any positive iteration budget.  The classic engine
(`TGSO.py`) does not: because its restart term sums `P0(j)` over all `j`,
on the two-node instance below it returns the constant vector `1`
(`Σ_j P0(j)`) after 2 iterations, instead of `P0 = (1, 0)` after one. -/
theorem C6_alpha_one_returns_P0 :
    (∀ (nodes : List ℕ) (LSG P0 : ℕ → ℚ) (tol : ℚ) (m : ℕ),
        0 < tol → 1 ≤ m →
        (modern_calculate nodes LSG P0 1 tol m).1.iters = 1 ∧
        (modern_calculate nodes LSG P0 1 tol m).1.converged = true ∧
        ∀ i ∈ nodes, (modern_calculate nodes LSG P0 1 tol m).1.P i = P0 i) ∧
    ((classic_calculate_P [0, 1] lsgOne p0Ind 1 (1/10) 5 1).map
        (fun r => (r.2, r.1 0, r.1 1)) = some (2, 1, 1) ∧
     p0Ind 0 = 1 ∧ p0Ind 1 = 0) := by
  constructor
  · intro nodes LSG P0 tol m htol hm
    obtain ⟨k, rfl⟩ : ∃ k, m = k + 1 := ⟨m - 1, by omega⟩
    have hd : modernMaxDiff nodes
        (fun i => if i ∈ nodes then P0 i else 0)
        (fun i => if i ∈ nodes then P0 i else 0) = 0 :=
      modernMaxDiff_eq_zero _ _ _ (fun _ _ => rfl)
    have hloop : modernLoop nodes LSG P0
        (modernNorm (listSum (nodes.map LSG))) 1 tol (k + 1)
        (fun i => if i ∈ nodes then P0 i else 0) 0 =
        ⟨fun i => if i ∈ nodes then P0 i else 0, 1, true⟩ := by
      rw [modernLoop]
      simp only [modernPnew_alpha_one, hd, if_pos htol]
    refine ⟨?_, ?_, ?_⟩
    · simp only [modern_calculate, hloop]
    · simp only [modern_calculate, hloop]
    · intro i hi
      simp only [modern_calculate, hloop, if_pos hi]
  · have hAt1 : ∀ (P : ℕ → ℚ), ∀ i ∈ [0, 1],
        classicPnewAt? [0, 1] lsgOne p0Ind 2 1 P i = some 1 := by
      intro P i hi
      fin_cases hi <;>
        norm_num [classicPnewAt?, accumSum?, classicPCIN?, divQ?, lsgOne,
          p0Ind, Option.bind]
    have hPn1 : ∀ (P : ℕ → ℚ),
        classicPnew? [0, 1] lsgOne p0Ind 2 1 P [0, 1] = some constOne2 := by
      intro P
      simp only [classicPnew?, hAt1 P 0 (by decide), hAt1 P 1 (by decide)]
      rfl
    have habs : |(1 : ℚ)| = 1 := abs_one
    have hsup : (0 : ℚ) ⊔ 1 = 1 := sup_eq_right.mpr (by norm_num)
    have hmd1 : maxDiff? constOne2 p0Ind [0, 1] = some 1 := by
      norm_num [maxDiff?, constOne2, p0Ind, habs, hsup]
    have hmd2 : maxDiff? constOne2 constOne2 [0, 1] = some 0 := by
      norm_num [maxDiff?, constOne2]
    have htot : listSum ([0, 1].map lsgOne) = 2 := by
      norm_num [listSum, lsgOne]
    refine ⟨?_, by norm_num [p0Ind], by norm_num [p0Ind]⟩
    rw [classic_calculate_P, htot, classicIter?, hPn1 p0Ind]
    simp only [Option.some_bind]
    rw [hmd1]
    simp only [Option.some_bind, divQ?]
    norm_num
    rw [classicIter?, hPn1 constOne2]
    simp only [Option.some_bind]
    rw [hmd2]
    simp only [Option.some_bind, divQ?]
    norm_num
    exact ⟨constOne2, 2, ⟨rfl, rfl⟩, rfl, by norm_num [constOne2],
      by norm_num [constOne2]⟩

theorem C6_witness :
    (0 : ℚ) < 1/10 ∧ (1 ≤ 3) ∧
      (modern_calculate [0, 1] lsgOne p0Ind 1 (1/10) 3).1.iters = 1 ∧
      (modern_calculate [0, 1] lsgOne p0Ind 1 (1/10) 3).1.P 1 = p0Ind 1 :=
  ⟨by norm_num, by norm_num,
   (C6_alpha_one_returns_P0.1 [0, 1] lsgOne p0Ind (1/10) 3 (by norm_num)
      (by norm_num)).1,
   (C6_alpha_one_returns_P0.1 [0, 1] lsgOne p0Ind (1/10) 3 (by norm_num)
      (by norm_num)).2.2 1 (by decide)⟩

def stdZeroStore : ℕ → Option ExprRow := fun n =>
  if n = 0 then some ⟨[1, 2], 3/2, 0⟩
  else if n = 1 then some ⟨[2, 3], 5/2, 1⟩ else none

def onePointStore : ℕ → Option ExprRow := fun n =>
  if n = 0 then some ⟨[5], 5, 1⟩
  else if n = 1 then some ⟨[7], 7, 2⟩ else none

def constStore : ℕ → Option (List (Option ℚ)) :=
  fun _ => some [some 2, some 2, some 2]

/-- C4: if either expression profile has standard deviation `0` or fewer
than 2 usable paired measurement points, the PCC feature evaluates to the
neutral `0` without error, and the CEN contributions built from such
pairs are `0` as well.  Both modern implementations
(`modern/tgso.py` `_calculate_pcc`, `modern/teo.py` `_calculate_pcc`)
satisfy this for every correlation kernel.  The classic implementation
(`TGSO.py` `pearson_correlation_coefficient`) instead raises
`ZeroDivisionError` (`none`): once on a pair whose stored `std` is `0`,
and once on single-point profiles via the division by `n - 1 = 0`. -/
theorem C4_degenerate_pcc_neutral_zero :
    (∀ (corr : List (ℚ × ℚ) → ℚ) (store : ℕ → Option (List (Option ℚ)))
        (u v : ℕ) (ru rv : List (Option ℚ)),
        store u = some ru → store v = some rv →
        ((validPairs ru rv).length ≤ 1 ∨
          sumSqDev ((validPairs ru rv).map Prod.fst) = 0 ∨
          sumSqDev ((validPairs ru rv).map Prod.snd) = 0) →
        modernTgsoPCC corr store u v = 0) ∧
    (∀ (corr : List (ℚ × ℚ) → ℚ) (store : ℕ → Option (List (Option ℚ)))
        (u v : ℕ) (ru rv : List (Option ℚ)),
        store u = some ru → store v = some rv →
        ((validPairs ru rv).length < 2 ∨
          sumSqDev ((validPairs ru rv).map Prod.fst) = 0 ∨
          sumSqDev ((validPairs ru rv).map Prod.snd) = 0) →
        modernTeoPCC corr store u v = 0) ∧
    (∀ (corr : List (ℚ × ℚ) → ℚ) (store : ℕ → Option (List (Option ℚ)))
        (es : List (ℕ × ℕ)) (u v : ℕ),
        (∀ a b, modernTgsoPCC corr store a b = 0) →
        modernCEN corr store es u v = 0) ∧
    classic_pearson_correlation_coefficient? stdZeroStore 0 1 = none ∧
    classic_pearson_correlation_coefficient? onePointStore 0 1 = none := by
  refine ⟨?_, ?_, ?_, ?_, ?_⟩
  · intro corr store u v ru rv hu hv hdeg
    simp only [modernTgsoPCC, hu, hv]
    rcases hdeg with hlen | hssd
    · rw [if_pos hlen]
    · by_cases hlen : (validPairs ru rv).length ≤ 1
      · rw [if_pos hlen]
      · rw [if_neg hlen, if_pos hssd]
  · intro corr store u v ru rv hu hv hdeg
    simp only [modernTeoPCC, hu, hv]
    rcases hdeg with hlen | hssd
    · rw [if_pos hlen]
    · by_cases hlen : (validPairs ru rv).length < 2
      · rw [if_pos hlen]
      · rw [if_neg hlen, if_pos hssd]
  · intro corr store es u v h
    simp only [modernCEN, h u v]
    rw [listSum_map_zero _ _ (fun w _ => by rw [h u w, h v w]; ring)]
    ring
  · have hrange : List.range 2 = [0, 1] := by decide
    norm_num [classic_pearson_correlation_coefficient?, stdZeroStore,
      pccSum?, divQ?, hrange, Option.bind]
  · have hrange : List.range 1 = [0] := by decide
    norm_num [classic_pearson_correlation_coefficient?, onePointStore,
      pccSum?, divQ?, hrange, Option.bind]

theorem C4_witness :
    modernTgsoPCC (fun _ => 1) constStore 0 1 = 0 ∧
    modernTeoPCC (fun _ => 1) constStore 0 1 = 0 ∧
    modernCEN (fun _ => 1) constStore [(0, 1)] 0 1 = 0 :=
  ⟨C4_degenerate_pcc_neutral_zero.1 (fun _ => 1) constStore 0 1 _ _ rfl rfl
      (Or.inr (Or.inl (by
        have h : (validPairs [some 2, some 2, some 2]
            [some 2, some 2, some 2]).map Prod.fst = [2, 2, 2] := rfl
        rw [h]
        norm_num [sumSqDev, listSum, listMean]))),
   C4_degenerate_pcc_neutral_zero.2.1 (fun _ => 1) constStore 0 1 _ _ rfl rfl
      (Or.inr (Or.inl (by
        have h : (validPairs [some 2, some 2, some 2]
            [some 2, some 2, some 2]).map Prod.fst = [2, 2, 2] := rfl
        rw [h]
        norm_num [sumSqDev, listSum, listMean]))),
   C4_degenerate_pcc_neutral_zero.2.2.1 (fun _ => 1) constStore [(0, 1)] 0 1
      (fun a b =>
        C4_degenerate_pcc_neutral_zero.1 (fun _ => 1) constStore a b _ _ rfl rfl
          (Or.inr (Or.inl (by
        have h : (validPairs [some 2, some 2, some 2]
            [some 2, some 2, some 2]).map Prod.fst = [2, 2, 2] := rfl
        rw [h]
        norm_num [sumSqDev, listSum, listMean]))))⟩

/-- C5: the spec's binary-activity weight thresholds at
`mean + 2*std*volatility` with `volatility = 1/(1+std^2)` and takes the
Jaccard index of the two active *index* sets.  The modern implementation
(`modern/jdc.py`) computes exactly the spec's active sets.  The classic
implementation (`JDC.py`) deviates twice: it thresholds at
`mean + 2*std + volatility` with `volatility = 1/(1+std)`, and it takes
the Jaccard index of the sets of binary *values*.  On the two profiles
below (data `[10,0]` and `[0,10]`, mean `5`, std `1`) the classic weight
is `1` while the spec weight is `0`. -/
theorem C5_activity_jaccard :
    classic_Jaccard_value (classic_binariztion [10, 0] 5 1)
        (classic_binariztion [0, 10] 5 1) = 1 ∧
    spec_jaccardWeight (spec_activeSet [10, 0] 5 1)
        (spec_activeSet [0, 10] 5 1) = 0 ∧
    ((0 : ℚ) < 1) ∧
    (∀ (data : List ℚ) (s : ℚ),
        modern_activeSet data s = spec_activeSet data (listMean data) s) := by
  refine ⟨?_, ?_, by norm_num, fun data s => rfl⟩
  · have hbu : classic_binariztion [10, 0] 5 1 = [1, 0] := by
      norm_num [classic_binariztion]
    have hbv : classic_binariztion [0, 10] 5 1 = [0, 1] := by
      norm_num [classic_binariztion]
    rw [hbu, hbv]
    have h1 : (([1, 0] : List ℕ).toFinset ∩ ([0, 1] : List ℕ).toFinset).card = 2 := by
      decide
    have h2 : (([1, 0] : List ℕ).toFinset ∪ ([0, 1] : List ℕ).toFinset).card = 2 := by
      decide
    rw [classic_Jaccard_value]
    rw [h1, h2]
    norm_num
  · have ha : spec_activeSet [10, 0] 5 1 = {0} := by
      rw [spec_activeSet]
      norm_num [List.range_succ, List.filter]
    have hb : spec_activeSet [0, 10] 5 1 = {1} := by
      rw [spec_activeSet]
      norm_num [List.range_succ, List.filter]
    rw [ha, hb]
    have h1 : (({0} : Finset ℕ) ∩ {1}).card = 0 := by decide
    have h2 : (({0} : Finset ℕ) ∪ {1}).card = 2 := by decide
    rw [spec_jaccardWeight]
    rw [h1, h2]
    norm_num

theorem commonNbrs_comm (es : List (ℕ × ℕ)) (a b : ℕ) :
    commonNbrs es a b = commonNbrs es b a := by
  simp only [commonNbrs, neighbors, List.filter_filter]
  apply List.filter_congr
  intro x _
  exact Bool.and_comm _ _

theorem pccSum?_swap (du dv : List ℚ) (mu su mv sv : ℚ) :
    ∀ idxs : List ℕ,
      pccSum? du dv mu su mv sv idxs = pccSum? dv du mv sv mu su idxs := by
  intro idxs
  induction idxs with
  | nil => rfl
  | cons i is ih =>
      simp only [pccSum?]
      cases h1 : du[i]? <;> cases h2 : dv[i]? <;>
        simp only [Option.some_bind, Option.none_bind]
      by_cases hsu : su = 0 <;> by_cases hsv : sv = 0 <;>
        simp only [divQ?, if_pos, if_neg, hsu, hsv, ite_true, ite_false,
          Option.some_bind, Option.none_bind]
      rw [ih]
      cases pccSum? dv du mv sv mu su is <;> simp [mul_comm]

theorem goBuild_foldl_symm (rows : List ((ℕ × ℕ) × GoRec)) :
    ∀ (d : (ℕ × ℕ) → Option GoRec),
      (∀ p q, d (p, q) = d (q, p)) →
      ∀ p q,
        (rows.foldl
          (fun d row => fun x =>
            if x = row.1 ∨ x = (row.1.2, row.1.1) then some row.2 else d x)
          d) (p, q) =
        (rows.foldl
          (fun d row => fun x =>
            if x = row.1 ∨ x = (row.1.2, row.1.1) then some row.2 else d x)
          d) (q, p) := by
  induction rows with
  | nil => intro d hd p q; exact hd p q
  | cons r rs ih =>
      intro d hd p q
      simp only [List.foldl_cons]
      apply ih
      intro x y
      have hcond : ((x, y) = r.1 ∨ (x, y) = (r.1.2, r.1.1)) ↔
          ((y, x) = r.1 ∨ (y, x) = (r.1.2, r.1.1)) := by
        obtain ⟨p1, p2⟩ := r.1
        simp only [Prod.ext_iff]
        tauto
      by_cases h : (x, y) = r.1 ∨ (x, y) = (r.1.2, r.1.1)
      · rw [if_pos h, if_pos (hcond.mp h)]
      · rw [if_neg h, if_neg (fun hc => h (hcond.mpr hc))]
        exact hd x y

theorem goBuild_symm (rows : List ((ℕ × ℕ) × GoRec)) (p q : ℕ) :
    goBuild rows (p, q) = goBuild rows (q, p) :=
  goBuild_foldl_symm rows (fun _ => none) (fun _ _ => rfl) p q

theorem classic_pcc_symm (store : ℕ → Option ExprRow) (u v : ℕ)
    (hlen : ∀ a b ra rb, store a = some ra → store b = some rb →
      ra.data.length = rb.data.length) :
    classic_pearson_correlation_coefficient? store u v =
      classic_pearson_correlation_coefficient? store v u := by
  cases hu : store u <;> cases hv : store v <;>
    simp only [classic_pearson_correlation_coefficient?, hu, hv]
  rename_i ru rv
  have hl : ru.data.length = rv.data.length := hlen u v ru rv hu hv
  rw [hl, pccSum?_swap]

def triEdges : List (ℕ × ℕ) := [(0, 1), (0, 2), (1, 2)]

def flatStore : ℕ → Option ExprRow :=
  fun n => if n ≤ 2 then some ⟨[10, 0], 5, 1⟩ else none

theorem flat_jaccard_entry (a b : ℕ) (ha : a ≤ 2) (hb : b ≤ 2) :
    classic_jaccard_entry flatStore a b = 1 := by
  simp only [classic_jaccard_entry, flatStore, if_pos ha, if_pos hb]
  have hbu : classic_binariztion [10, 0] 5 1 = [1, 0] := by
    norm_num [classic_binariztion]
  rw [hbu]
  have h1 : (([1, 0] : List ℕ).toFinset ∩ ([1, 0] : List ℕ).toFinset).card = 2 := by
    decide
  have h2 : (([1, 0] : List ℕ).toFinset ∪ ([1, 0] : List ℕ).toFinset).card = 2 := by
    decide
  rw [classic_Jaccard_value]
  rw [h1, h2]
  norm_num

theorem tri_ecc_edge (a b : ℕ) (hc : commonNbrs triEdges a b = [2] ∨
    commonNbrs triEdges a b = [1] ∨ commonNbrs triEdges a b = [0])
    (hda : degreeOf triEdges a = 2) (hdb : degreeOf triEdges b = 2) :
    classic_ecc_value triEdges a b = 1 := by
  rw [classic_ecc_value, hda, hdb]
  rcases hc with h | h | h <;> rw [h] <;> norm_num

/-- C7: every composite edge weight of the
ECC/ADN/CEN/CLN/PCC/GO-similarity/activity-Jaccard family is symmetric in
its two endpoints, which holds for the weight *values* of every
implementation (ADN, ECC, CLN, activity-Jaccard, the GO-similarity
lookup, and classic PCC over equal-length profiles are proved here).
But the claim's consequence — that node aggregation observes the same
value for an edge from either endpoint — fails in the classic JDC
aggregation (`JDC.py`, `calculate_jdc`): its dictionaries are keyed by
the single `G.edges()` orientation and the reverse lookup is skipped by
`except KeyError`, so on a fully symmetric triangle with identical
expression profiles the three node scores are `2`, `1`, `0` instead of
being equal. -/
theorem C7_weight_symmetry :
    (∀ (es : List (ℕ × ℕ)) (a b : ℕ),
        classic_ADN_value es a b = classic_ADN_value es b a) ∧
    (∀ (es : List (ℕ × ℕ)) (a b : ℕ),
        classic_ecc_value es a b = classic_ecc_value es b a) ∧
    (∀ (loc : ℕ → Finset ℕ) (S : ℕ → ℚ) (a b : ℕ),
        classic_CLN_value loc S a b = classic_CLN_value loc S b a) ∧
    (∀ A B : Finset ℕ, jaccardIndexQ A B = jaccardIndexQ B A) ∧
    (∀ (rows : List ((ℕ × ℕ) × GoRec)) (p q : ℕ),
        goBuild rows (p, q) = goBuild rows (q, p)) ∧
    (∀ (store : ℕ → Option ExprRow) (u v : ℕ),
        (∀ a b ra rb, store a = some ra → store b = some rb →
          ra.data.length = rb.data.length) →
        classic_pearson_correlation_coefficient? store u v =
          classic_pearson_correlation_coefficient? store v u) ∧
    (classic_calculate_jdc_score triEdges flatStore 0 = 2 ∧
     classic_calculate_jdc_score triEdges flatStore 1 = 1 ∧
     classic_calculate_jdc_score triEdges flatStore 2 = 0) := by
  refine ⟨?_, ?_, ?_, ?_, ?_, classic_pcc_symm, ?_, ?_, ?_⟩
  · intro es a b
    rw [classic_ADN_value, classic_ADN_value, commonNbrs_comm,
      min_comm ((degreeOf es a : ℚ))]
  · intro es a b
    rw [classic_ecc_value, classic_ecc_value, commonNbrs_comm,
      min_comm ((degreeOf es a : ℤ))]
  · intro loc S a b
    rw [classic_CLN_value, classic_CLN_value, Finset.inter_comm,
      Finset.union_comm, add_comm (S a)]
  · intro A B
    rw [jaccardIndexQ, jaccardIndexQ, Finset.inter_comm, Finset.union_comm]
  · intro rows p q
    exact goBuild_symm rows p q
  · have hnb0 : neighbors triEdges 0 = [1, 2] := by decide
    have hnx : nxEdges triEdges = [(0, 1), (0, 2), (1, 2)] := by decide
    rw [classic_calculate_jdc_score, hnb0, hnx]
    have he01 : classic_ecc_value triEdges 0 1 = 1 :=
      tri_ecc_edge 0 1 (Or.inl (by decide)) (by decide) (by decide)
    have he02 : classic_ecc_value triEdges 0 2 = 1 :=
      tri_ecc_edge 0 2 (Or.inr (Or.inl (by decide))) (by decide) (by decide)
    simp only [List.map_cons, List.map_nil]
    rw [if_pos (by decide : ((0 : ℕ), (1 : ℕ)) ∈ [((0 : ℕ), (1 : ℕ)), (0, 2), (1, 2)]),
      if_pos (by decide : ((0 : ℕ), (2 : ℕ)) ∈ [((0 : ℕ), (1 : ℕ)), (0, 2), (1, 2)]),
      flat_jaccard_entry 0 1 (by norm_num) (by norm_num),
      flat_jaccard_entry 0 2 (by norm_num) (by norm_num), he01, he02]
    norm_num [listSum]
  · have hnb1 : neighbors triEdges 1 = [0, 2] := by decide
    have hnx : nxEdges triEdges = [(0, 1), (0, 2), (1, 2)] := by decide
    rw [classic_calculate_jdc_score, hnb1, hnx]
    have he12 : classic_ecc_value triEdges 1 2 = 1 :=
      tri_ecc_edge 1 2 (Or.inr (Or.inr (by decide))) (by decide) (by decide)
    simp only [List.map_cons, List.map_nil]
    rw [if_neg (by decide : ¬ ((1 : ℕ), (0 : ℕ)) ∈ [((0 : ℕ), (1 : ℕ)), (0, 2), (1, 2)]),
      if_pos (by decide : ((1 : ℕ), (2 : ℕ)) ∈ [((0 : ℕ), (1 : ℕ)), (0, 2), (1, 2)]),
      flat_jaccard_entry 1 2 (by norm_num) (by norm_num), he12]
    norm_num [listSum]
  · have hnb2 : neighbors triEdges 2 = [0, 1] := by decide
    have hnx : nxEdges triEdges = [(0, 1), (0, 2), (1, 2)] := by decide
    rw [classic_calculate_jdc_score, hnb2, hnx]
    simp only [List.map_cons, List.map_nil]
    rw [if_neg (by decide : ¬ ((2 : ℕ), (0 : ℕ)) ∈ [((0 : ℕ), (1 : ℕ)), (0, 2), (1, 2)]),
      if_neg (by decide : ¬ ((2 : ℕ), (1 : ℕ)) ∈ [((0 : ℕ), (1 : ℕ)), (0, 2), (1, 2)])]
    norm_num [listSum]

theorem C7_witness :
    classic_pearson_correlation_coefficient? flatStore 0 1 =
      classic_pearson_correlation_coefficient? flatStore 1 0 :=
  C7_weight_symmetry.2.2.2.2.2.1 flatStore 0 1
    (fun a b ra rb ha hb => by
      simp only [flatStore] at ha hb
      split at ha <;> simp_all)

/-- C9 counterexample: the claim says every NaN or infinite score entry
is replaced by `0` and the protein is kept in the ranked output in every
scoring mode.  The modern JDC sanitization (`modern/jdc.py`, `calculate`:
`replace([inf, -inf], nan)` then `dropna`) instead *drops* the protein:
on scores `[(0, 1), (1, inf)]` protein `1` is absent from the output. -/
theorem C9_counterexample :
    jdc_sanitizeList [(0, FVal.num 1), (1, FVal.inf)] = [(0, FVal.num 1)] ∧
    (jdc_sanitizeList [(0, FVal.num 1), (1, FVal.inf)]).map Prod.fst = [0] := by
  constructor
  · rfl
  · rfl

/-- C9 amended: before ranking, the modern TGSO mode replaces every
non-finite score by `0` and keeps every protein (same key list, finite
entries unchanged, non-finite entries mapped to `0`), while the modern
JDC mode removes the proteins whose score is NaN or infinite from the
ranked output (its sanitization equals a filter on finiteness). -/
theorem C9_amended_sanitization :
    (∀ l : List (ℕ × FVal),
        (tgso_sanitizeList l).map Prod.fst = l.map Prod.fst) ∧
    (∀ (l : List (ℕ × FVal)) (p : ℕ × FVal), p ∈ l →
        isFiniteF p.2 = false → (p.1, FVal.num 0) ∈ tgso_sanitizeList l) ∧
    (∀ (l : List (ℕ × FVal)) (p : ℕ × FVal), p ∈ l →
        isFiniteF p.2 = true → p ∈ tgso_sanitizeList l) ∧
    (∀ l : List (ℕ × FVal),
        jdc_sanitizeList l = l.filter (fun p => isFiniteF p.2)) := by
  refine ⟨?_, ?_, ?_, ?_⟩
  · intro l
    simp [tgso_sanitizeList, List.map_map, Function.comp]
  · intro l p hp hfin
    exact List.mem_map.mpr ⟨p, hp, by simp [tgso_sanitize, hfin]⟩
  · intro l p hp hfin
    exact List.mem_map.mpr ⟨p, hp, by simp [tgso_sanitize, hfin]⟩
  · intro l
    induction l with
    | nil => rfl
    | cons p l ih =>
        obtain ⟨a, v⟩ := p
        cases v <;>
          simp_all [jdc_sanitizeList, jdc_replaceInf, isFiniteF,
            List.filter_cons]

theorem C9_witness :
    (tgso_sanitizeList [(0, FVal.inf)]).map Prod.fst =
        [((0 : ℕ), FVal.inf)].map Prod.fst ∧
    ((0 : ℕ), FVal.num 0) ∈ tgso_sanitizeList [(0, FVal.inf)] ∧
    jdc_sanitizeList [(0, FVal.nan)] =
      [((0 : ℕ), FVal.nan)].filter (fun p => isFiniteF p.2) :=
  ⟨C9_amended_sanitization.1 _,
   C9_amended_sanitization.2.1 _ (0, FVal.inf) (by decide) (by decide),
   C9_amended_sanitization.2.2.2 _⟩
